import Mathlib

/-!
Shallow embedding of clang/lib/AST/Interp/InterpBlock.h: the `Block` and
`DeadBlock` classes of the constant-expression interpreter's memory-block
subsystem. Machine bytes are modelled as `Nat`s, the intrusive pointer
chain as a list of pointer identifiers, and the doubly linked list of dead
blocks as an explicit store of nodes with `prev`/`next` links.
-/

set_option autoImplicit false

namespace InterpBlock

/-- Modelled from the spec: the external `Descriptor` (Descriptor.h is not in
the tree) supplies the data size (`getSize`), the metadata-region size
(`getMetadataSize`), the allocation footprint after the header
(`getAllocSize`, equal to metadata size plus data size per the layout
comment in InterpBlock.h), the `IsConst`/`IsMutable`/`IsTemporary` flags and
the optional construct/destroy callbacks. The construct callback receives
the const flag, the mutable flag and the active flag together with the data
view; the destroy callback receives the data view. -/
structure Descriptor where
  Size : Nat
  MDSize : Nat
  IsConst : Bool
  IsMutable : Bool
  IsTemporary : Bool
  CtorFn : Option (Bool → Bool → Bool → List Nat → List Nat)
  DtorFn : Option (List Nat → List Nat)

/-- Data size of the described object (`Descriptor::getSize`). -/
def Descriptor.getSize (d : Descriptor) : Nat := d.Size

/-- Size of the metadata region (`Descriptor::getMetadataSize`). -/
def Descriptor.getMetadataSize (d : Descriptor) : Nat := d.MDSize

/-- Size of the allocation after the `Block` header: metadata plus data
(`Descriptor::getAllocSize`, per the layout comment in InterpBlock.h). -/
def Descriptor.getAllocSize (d : Descriptor) : Nat := d.MDSize + d.Size

/-- A memory block (`class Block` of InterpBlock.h). The post-header
allocation (metadata region followed by data region) is modelled as
`rawBytes`; the intrusive chain headed by the `Pointers` field is modelled
as the list of attached pointer identifiers, in chain order. -/
structure Block where
  Pointers : List Nat
  DeclID : Option Nat
  IsStatic : Bool
  IsExtern : Bool
  IsDead : Bool
  IsInitialized : Bool
  Desc : Descriptor
  rawBytes : List Nat

/-- Public constructor `Block(const std::optional<unsigned> &DeclID, Descriptor *Desc, bool IsStatic, bool IsExtern)`.
The allocation contents are whatever bytes the allocator handed over,
passed here as `mem`. -/
def Block.mkWithId (DeclID : Option Nat) (Desc : Descriptor)
    (IsStatic : Bool) (IsExtern : Bool) (mem : List Nat) : Block :=
  { Pointers := []
    DeclID := DeclID
    IsStatic := IsStatic
    IsExtern := IsExtern
    IsDead := false
    IsInitialized := false
    Desc := Desc
    rawBytes := mem }

/-- Public constructor `Block(Descriptor *Desc, bool IsStatic, bool IsExtern)`:
stores `(unsigned)-1`, i.e. `2 ^ 32 - 1`, as the declaration id. -/
def Block.mkNoId (Desc : Descriptor) (IsStatic : Bool) (IsExtern : Bool)
    (mem : List Nat) : Block :=
  { Pointers := []
    DeclID := some (2 ^ 32 - 1)
    IsStatic := IsStatic
    IsExtern := IsExtern
    IsDead := false
    IsInitialized := false
    Desc := Desc
    rawBytes := mem }

/-- Protected constructor `Block(Descriptor *Desc, bool IsExtern, bool IsStatic, bool IsDead)`:
marks the block dead on creation and leaves `DeclID` default-constructed
(`std::optional` default-constructs to an absent value). -/
def Block.mkDead (Desc : Descriptor) (IsExtern : Bool) (IsStatic : Bool)
    (mem : List Nat) : Block :=
  { Pointers := []
    DeclID := none
    IsStatic := IsStatic
    IsExtern := IsExtern
    IsDead := true
    IsInitialized := false
    Desc := Desc
    rawBytes := mem }

/-- `Block::getDescriptor`. -/
def Block.getDescriptor (b : Block) : Descriptor := b.Desc

/-- `Block::hasPointers`: `return Pointers;` — the head of the intrusive
chain is non-null exactly when the chain list is non-empty. -/
def Block.hasPointers (b : Block) : Bool := !b.Pointers.isEmpty

/-- `Block::isExtern`. -/
def Block.isExtern (b : Block) : Bool := b.IsExtern

/-- `Block::isStatic`. -/
def Block.isStatic (b : Block) : Bool := b.IsStatic

/-- `Block::isTemporary`: delegates to the descriptor. -/
def Block.isTemporary (b : Block) : Bool := b.Desc.IsTemporary

/-- `Block::getSize`: the descriptor's allocation footprint. -/
def Block.getSize (b : Block) : Nat := b.Desc.getAllocSize

/-- `Block::getDeclID`. -/
def Block.getDeclID (b : Block) : Option Nat := b.DeclID

/-- `Block::isInitialized`. -/
def Block.isInitialized (b : Block) : Bool := b.IsInitialized

/-- `Block::rawData`: `reinterpret_cast<std::byte *>(this) + sizeof(Block)`,
the address immediately after the fixed-size header. `base` is the block's
own address and `hdr` is `sizeof(Block)`. -/
def Block.rawAddr (base : Nat) (hdr : Nat) : Nat := base + hdr

/-- `Block::data`: `rawData() + Desc->getMetadataSize()`. -/
def Block.dataAddr (b : Block) (base : Nat) (hdr : Nat) : Nat :=
  Block.rawAddr base hdr + b.Desc.getMetadataSize

/-- Bytes visible through `rawData()` (the whole post-header allocation). -/
def Block.rawDataBytes (b : Block) : List Nat := b.rawBytes

/-- Bytes visible through `data()` (the allocation minus the metadata
region). -/
def Block.dataBytes (b : Block) : List Nat := b.rawBytes.drop b.Desc.getMetadataSize

/-- `std::memset(p, 0, n)` on a byte region: writes zero over the first `n`
bytes, leaving any bytes beyond `n` unchanged. -/
def memset0 : List Nat → Nat → List Nat
  | l, 0 => l
  | [], _ + 1 => []
  | _ :: t, n + 1 => 0 :: memset0 t n

/-- `Block::invokeCtor`: zero-fills `Desc->getAllocSize()` bytes starting at
`rawData()`, then, if `Desc->CtorFn` is present, invokes it on the `data()`
view with the descriptor's const and mutable flags and `isActive = true`,
and finally sets `IsInitialized = true`. -/
def Block.invokeCtor (b : Block) : Block :=
  let zeroed := memset0 b.rawBytes b.Desc.getAllocSize
  let raw :=
    match b.Desc.CtorFn with
    | some f =>
        zeroed.take b.Desc.getMetadataSize ++
          f b.Desc.IsConst b.Desc.IsMutable true (zeroed.drop b.Desc.getMetadataSize)
    | none => zeroed
  { b with rawBytes := raw, IsInitialized := true }

/-- `Block::invokeDtor`: if `Desc->DtorFn` is present, invokes it on the
`data()` view, then sets `IsInitialized = false`. -/
def Block.invokeDtor (b : Block) : Block :=
  let raw :=
    match b.Desc.DtorFn with
    | some f =>
        b.rawBytes.take b.Desc.getMetadataSize ++
          f (b.rawBytes.drop b.Desc.getMetadataSize)
    | none => b.rawBytes
  { b with rawBytes := raw, IsInitialized := false }

/-- Modelled from the spec: `Block::addPointer` (InterpBlock.cpp is not in
the tree) inserts a reference node into the intrusive chain. -/
def Block.addPointer (b : Block) (p : Nat) : Block :=
  { b with Pointers := p :: b.Pointers }

/-- Modelled from the spec: `Block::removePointer` (InterpBlock.cpp is not
in the tree) removes a reference node from the intrusive chain. -/
def Block.removePointer (b : Block) (p : Nat) : Block :=
  { b with Pointers := b.Pointers.erase p }

/-- Modelled from the spec: `Block::replacePointer` (InterpBlock.cpp is not
in the tree) substitutes the new reference node for the old one in place,
leaving every other chain position untouched. -/
def Block.replacePointer (b : Block) (o : Nat) (n : Nat) : Block :=
  { b with Pointers := b.Pointers.map (fun x => if x = o then n else x) }

/-- Debug-only membership query `Block::hasPointer`. -/
def Block.hasPointerIn (b : Block) (p : Nat) : Bool := b.Pointers.contains p

/-- The chain mutations of a block: attach, detach, retarget. -/
inductive ChainOp where
  | attach (p : Nat)
  | detach (p : Nat)
  | retarget (o : Nat) (n : Nat)

/-- Apply one chain mutation. -/
def applyChainOp (b : Block) : ChainOp → Block
  | ChainOp.attach p => b.addPointer p
  | ChainOp.detach p => b.removePointer p
  | ChainOp.retarget o n => b.replacePointer o n

/-- Apply a sequence of chain mutations, first element first. -/
def applyChainOps (b : Block) (ops : List ChainOp) : Block :=
  ops.foldl applyChainOp b

/-- The lifecycle calls of a block: construct and destroy. -/
inductive LifeOp where
  | ctor
  | dtor

/-- Apply one lifecycle call. -/
def applyLifeOp (b : Block) : LifeOp → Block
  | LifeOp.ctor => b.invokeCtor
  | LifeOp.dtor => b.invokeDtor

/-- Apply a sequence of lifecycle calls, first element first. -/
def applyLifeOps (b : Block) (ops : List LifeOp) : Block :=
  ops.foldl applyLifeOp b

/-- Every operation a live block is subject to: lifecycle calls and chain
mutations. -/
inductive BlockOp where
  | life (op : LifeOp)
  | chain (op : ChainOp)

/-- Apply one block operation. -/
def applyBlockOp (b : Block) : BlockOp → Block
  | BlockOp.life op => applyLifeOp b op
  | BlockOp.chain op => applyChainOp b op

/-- Apply a sequence of block operations, first element first. -/
def applyBlockOps (b : Block) (ops : List BlockOp) : Block :=
  ops.foldl applyBlockOp b

/-- The value the initialized flag takes right after a lifecycle call. -/
def lifeFlag : LifeOp → Bool
  | LifeOp.ctor => true
  | LifeOp.dtor => false

/-- Concrete descriptor used by witnesses: one metadata byte, one data byte,
no callbacks. -/
def descTiny : Descriptor :=
  { Size := 1, MDSize := 1, IsConst := false, IsMutable := false,
    IsTemporary := false, CtorFn := none, DtorFn := none }

/-- Concrete descriptor with no metadata, one data byte, no callbacks. -/
def descByte : Descriptor :=
  { Size := 1, MDSize := 0, IsConst := false, IsMutable := false,
    IsTemporary := false, CtorFn := none, DtorFn := none }

/-- Concrete descriptor matching the spec scenario: metadata size 8, data
size 24. -/
def descMeta8 : Descriptor :=
  { Size := 24, MDSize := 8, IsConst := false, IsMutable := false,
    IsTemporary := false, CtorFn := none, DtorFn := none }

/-- Concrete block over `descTiny` holding bytes 5 and 7. -/
def blkTiny : Block :=
  { Pointers := [], DeclID := none, IsStatic := false, IsExtern := false,
    IsDead := false, IsInitialized := false, Desc := descTiny,
    rawBytes := [5, 7] }

/-- Concrete block over `descByte` holding the byte 0xAA. -/
def blkAA : Block :=
  { Pointers := [], DeclID := none, IsStatic := false, IsExtern := false,
    IsDead := false, IsInitialized := false, Desc := descByte,
    rawBytes := [170] }

/-- Concrete block over `descMeta8`. -/
def blkMeta8 : Block :=
  { Pointers := [], DeclID := none, IsStatic := false, IsExtern := false,
    IsDead := false, IsInitialized := false, Desc := descMeta8,
    rawBytes := List.replicate 32 0 }

/-- Concrete block with three attached pointers 1, 2, 3. -/
def blkChain : Block :=
  { Pointers := [1, 2, 3], DeclID := none, IsStatic := false,
    IsExtern := false, IsDead := false, IsInitialized := false,
    Desc := descByte, rawBytes := [0] }

/-- A node of the global doubly linked list of dead blocks (`class DeadBlock`):
the `Prev` and `Next` links and the embedded block `B`. The `Root`
reference the node also holds is the driver-owned root kept in the
enclosing `Heap`. -/
structure DNode where
  prev : Option Nat
  next : Option Nat
  B : Block

/-- The global list of dead blocks: the driver-owned root plus the store of
allocated nodes, addressed by node identifier. -/
@[ext] structure Heap where
  root : Option Nat
  nodes : Nat → Option DNode

/-- Builds the node store holding the dead blocks listed in `l`, linked in
list order, with `pr` the predecessor link of the first one; `f` gives each
node's embedded block. -/
def linksOf (f : Nat → Block) : List Nat → Option Nat → Nat → Option DNode
  | [], _, _ => none
  | h :: t, pr, i =>
      if i = h then some ⟨pr, t.head?, f h⟩ else linksOf f t (some h) i

/-- The dead-block list holding exactly the nodes of `l`, in order, with
the root at the head of `l`. -/
def mkHeap (f : Nat → Block) (l : List Nat) : Heap :=
  ⟨l.head?, fun i => linksOf f l none i⟩

/-- Last element of a list, or the default `pr` when the list is empty. -/
def lastOpt : List Nat → Option Nat → Option Nat
  | [], pr => pr
  | h :: t, _ => lastOpt t (some h)

/-- Reclaims the storage of node `n`: the store no longer holds it. -/
def delNode (ns : Nat → Option DNode) (n : Nat) : Nat → Option DNode :=
  fun i => if i = n then none else ns i

/-- Patches the next link of the node named by `pr` (the freed node's
predecessor, when there is one) to `nx` (the freed node's successor). -/
def patchNext (ns : Nat → Option DNode) (pr nx : Option Nat) :
    Nat → Option DNode :=
  match pr with
  | some p => fun i =>
      if i = p then (ns i).map (fun x => ⟨x.prev, nx, x.B⟩) else ns i
  | none => ns

/-- Patches the prev link of the node named by `nx` (the freed node's
successor, when there is one) to `pr` (the freed node's predecessor). -/
def patchPrev (ns : Nat → Option DNode) (nx pr : Option Nat) :
    Nat → Option DNode :=
  match nx with
  | some q => fun i =>
      if i = q then (ns i).map (fun x => ⟨pr, x.next, x.B⟩) else ns i
  | none => ns

/-- The whole node-store surgery of freeing node `n` whose links were `nd`:
reclaim `n`, point the predecessor's next link at the successor, and the
successor's prev link at the predecessor. -/
def freePatch (ns : Nat → Option DNode) (n : Nat) (nd : DNode) :
    Nat → Option DNode :=
  patchPrev (patchNext (delNode ns n) nd.prev nd.next) nd.next nd.prev

/-- Modelled from the spec: the node-store effect of `DeadBlock::free`
(InterpBlock.cpp is not in the tree) — reclaim the node and patch both
neighbours' links around it. -/
def freeNodes (ns : Nat → Option DNode) (n : Nat) : Nat → Option DNode :=
  match ns n with
  | none => ns
  | some nd => freePatch ns n nd

/-- Modelled from the spec: `DeadBlock::free` (InterpBlock.cpp is not in
the tree) unlinks the node from the global list — patching the neighbours'
links, or the root when the node is the head — and reclaims its storage. -/
def Heap.free (h : Heap) (n : Nat) : Heap :=
  match h.nodes n with
  | none => h
  | some nd =>
      ⟨(match nd.prev with
        | some _ => h.root
        | none => nd.next),
       freeNodes h.nodes n⟩

/-- Walks the global list from `cur`, following next links and collecting
node identifiers; `fuel` bounds the walk. -/
def traverse (ns : Nat → Option DNode) : Option Nat → Nat → List Nat
  | _, 0 => []
  | none, _ + 1 => []
  | some i, fuel + 1 =>
      match ns i with
      | none => []
      | some nd => i :: traverse ns nd.next fuel

/-- Modelled from the spec: the retargeting walk of the `DeadBlock`
constructor (InterpBlock.cpp is not in the tree) — every reference node on
the source chain is pointed at the new block, one node at a time. `tgt`
maps a pointer identifier to the block it targets. -/
def retargetAll (tgt : Nat → Option Nat) (ps : List Nat) (newB : Nat) :
    Nat → Option Nat :=
  match ps with
  | [] => tgt
  | p :: t => retargetAll (fun x => if x = p then some newB else tgt x) t newB

/-- Modelled from the spec: `DeadBlock::DeadBlock(DeadBlock *&Root, Block *Blk)`
(InterpBlock.cpp is not in the tree): copies the source block — header
fields, metadata and data bytes — into a fresh node whose embedded block is
marked dead, transfers the pointer chain, links the node at the head of the
global list updating the root, and retargets every previously attached
reference to the new embedded block. `newId` is the address of the fresh
node. -/
def deadBlockCtor (h : Heap) (tgt : Nat → Option Nat) (src : Block)
    (newId : Nat) : Heap × (Nat → Option Nat) :=
  let emb : Block := { src with IsDead := true }
  let ns1 : Nat → Option DNode :=
    match h.root with
    | some r => fun i =>
        if i = r then (h.nodes i).map (fun x => ⟨some newId, x.next, x.B⟩)
        else h.nodes i
    | none => h.nodes
  let ns2 : Nat → Option DNode :=
    fun i => if i = newId then some ⟨none, h.root, emb⟩ else ns1 i
  (⟨some newId, ns2⟩, retargetAll tgt src.Pointers newId)

/-- The empty global dead-block list. -/
def heapEmpty : Heap := ⟨none, fun _ => none⟩

/-- Pointer-target map with no pointer attached anywhere. -/
def tgtEmpty : Nat → Option Nat := fun _ => none

/-- Embedded-block assignment used by witnesses: every dead node embeds
`blkAA`. -/
def fAA : Nat → Block := fun _ => blkAA

theorem memset0_full (l : List Nat) : memset0 l l.length = List.replicate l.length 0 := by
  induction l with
  | nil => rfl
  | cons a t ih => simpa [memset0, List.replicate] using ih

/-- Claim C1: for every block mutated only through attach, detach and
retarget, `hasPointers` is true if and only if the chain of attached
reference nodes is non-empty, before (`k = 0`) and after every prefix of
the mutation sequence. -/
theorem hasPointers_iff_chain_nonempty (b : Block) (ops : List ChainOp) (k : Nat) :
    (applyChainOps b (ops.take k)).hasPointers = true ↔
      0 < (applyChainOps b (ops.take k)).Pointers.length := by
  simp [Block.hasPointers, List.isEmpty_iff, List.length_pos]

/-- Claim C2: `invokeCtor` zero-fills the whole post-header allocation,
then runs the construct callback (when present) on the data view with the
descriptor's const and mutable flags and the active flag set to true, and
finally sets the initialized flag. -/
theorem invokeCtor_zero_ctor_init (b : Block)
    (h : b.rawBytes.length = b.Desc.getAllocSize) :
    (b.invokeCtor).IsInitialized = true ∧
    (b.Desc.CtorFn = none →
      (b.invokeCtor).rawBytes = List.replicate b.Desc.getAllocSize 0) ∧
    (∀ f, b.Desc.CtorFn = some f →
      (b.invokeCtor).rawBytes =
        List.replicate b.Desc.getMetadataSize 0 ++
          f b.Desc.IsConst b.Desc.IsMutable true
            (List.replicate b.Desc.getSize 0)) := by
  have hz : memset0 b.rawBytes b.Desc.getAllocSize =
      List.replicate b.Desc.getAllocSize 0 := by
    rw [← h, memset0_full]
  refine ⟨rfl, ?_, ?_⟩
  · intro hc
    simp [Block.invokeCtor, hc, hz]
  · intro f hf
    simp only [Block.invokeCtor, hf, hz]
    rw [List.take_replicate, List.drop_replicate]
    have hmin : min b.Desc.getMetadataSize b.Desc.getAllocSize =
        b.Desc.getMetadataSize :=
      Nat.min_eq_left (Nat.le_add_right _ _)
    have hsub : b.Desc.getAllocSize - b.Desc.getMetadataSize = b.Desc.getSize := by
      simp [Descriptor.getAllocSize, Descriptor.getMetadataSize, Descriptor.getSize]
    rw [hmin, hsub]

/-- Witness for claim C2 at the concrete block `blkTiny`. -/
theorem invokeCtor_zero_ctor_init_witness :
    (blkTiny.invokeCtor).IsInitialized = true ∧
    (blkTiny.Desc.CtorFn = none →
      (blkTiny.invokeCtor).rawBytes = List.replicate blkTiny.Desc.getAllocSize 0) ∧
    (∀ f, blkTiny.Desc.CtorFn = some f →
      (blkTiny.invokeCtor).rawBytes =
        List.replicate blkTiny.Desc.getMetadataSize 0 ++
          f blkTiny.Desc.IsConst blkTiny.Desc.IsMutable true
            (List.replicate blkTiny.Desc.getSize 0)) :=
  invokeCtor_zero_ctor_init blkTiny rfl

/-- Claim C3: the address of `data()` is the address of `rawData()` plus the
descriptor's metadata size, `rawData()` sits immediately after the header,
and with metadata size 8 the offset is exactly 8. -/
theorem dataAddr_eq_rawAddr_add_mdsize (b : Block) (base hdr : Nat) :
    b.dataAddr base hdr = Block.rawAddr base hdr + b.Desc.getMetadataSize ∧
    Block.rawAddr base hdr = base + hdr ∧
    (b.Desc.getMetadataSize = 8 →
      b.dataAddr base hdr = Block.rawAddr base hdr + 8) := by
  refine ⟨rfl, rfl, fun h8 => ?_⟩
  simp [Block.dataAddr, h8]

/-- Witness for claim C3 at the concrete block `blkMeta8`. -/
theorem dataAddr_eq_rawAddr_add_mdsize_witness :
    blkMeta8.Desc.getMetadataSize = 8 ∧
    blkMeta8.dataAddr 0 40 = Block.rawAddr 0 40 + 8 :=
  ⟨rfl, (dataAddr_eq_rawAddr_add_mdsize blkMeta8 0 40).2.2 rfl⟩

/-- Claim C4: over any sequence of construct/destroy calls, the initialized
flag equals true exactly when the most recent lifecycle call was a
construct; with no calls it keeps its prior value. In particular a
construct leaves it true and a subsequent destroy leaves it false. -/
theorem isInitialized_matches_last_life (b : Block) (ops : List LifeOp) :
    (applyLifeOps b ops).isInitialized =
      (ops.getLast?.map lifeFlag).getD b.isInitialized := by
  induction ops using List.reverseRecOn with
  | nil => rfl
  | append_singleton t op _ =>
    have step : applyLifeOps b (t ++ [op]) =
        applyLifeOp (applyLifeOps b t) op := by
      simp [applyLifeOps, List.foldl_append]
    rw [step, List.getLast?_concat]
    cases op <;> rfl

/-- Counterexample for claim C5: on a block whose descriptor has no
construct callback, `invokeCtor` is not a pure flag flip — the memset still
rewrites the data bytes (here 0xAA becomes 0). -/
theorem invokeCtor_not_pure_flip :
    blkAA.Desc.CtorFn = none ∧ (blkAA.invokeCtor).rawBytes ≠ blkAA.rawBytes := by
  exact ⟨rfl, by decide⟩

/-- Claim C5 amended: with an absent destroy callback, `invokeDtor` is a
pure initialized-flag flip; with an absent construct callback, `invokeCtor`
still zero-fills the allocation before flipping the flag, so the data bytes
become zero rather than staying unchanged. -/
theorem absent_callbacks_effect (b : Block)
    (hlen : b.rawBytes.length = b.Desc.getAllocSize) :
    (b.Desc.DtorFn = none → b.invokeDtor = { b with IsInitialized := false }) ∧
    (b.Desc.CtorFn = none →
      b.invokeCtor = { b with rawBytes := List.replicate b.Desc.getAllocSize 0,
                              IsInitialized := true }) := by
  constructor
  · intro hd
    simp [Block.invokeDtor, hd]
  · intro hc
    have hz : memset0 b.rawBytes b.Desc.getAllocSize =
        List.replicate b.Desc.getAllocSize 0 := by
      rw [← hlen, memset0_full]
    simp [Block.invokeCtor, hc, hz]

/-- Witness for the amended claim C5 at the concrete block `blkAA`. -/
theorem absent_callbacks_effect_witness :
    (blkAA.Desc.DtorFn = none →
      blkAA.invokeDtor = { blkAA with IsInitialized := false }) ∧
    (blkAA.Desc.CtorFn = none →
      blkAA.invokeCtor =
        { blkAA with rawBytes := List.replicate blkAA.Desc.getAllocSize 0,
                     IsInitialized := true }) :=
  absent_callbacks_effect blkAA rfl

/-- Claim C7: retargeting substitutes the new reference node for the old
one in place — the chain keeps its length, the old node disappears, the new
node takes exactly the positions the old one held, and every other position
is unchanged. -/
theorem replacePointer_substitutes (b : Block) (o n : Nat)
    (ho : o ∈ b.Pointers) (hn : n ∉ b.Pointers) :
    (b.replacePointer o n).Pointers.length = b.Pointers.length ∧
    o ∉ (b.replacePointer o n).Pointers ∧
    (∀ i : Nat, b.Pointers[i]? = some o →
      (b.replacePointer o n).Pointers[i]? = some n) ∧
    (∀ i : Nat, ∀ x, b.Pointers[i]? = some x → x ≠ o →
      (b.replacePointer o n).Pointers[i]? = some x) := by
  have hon : o ≠ n := fun e => hn (e ▸ ho)
  refine ⟨?_, ?_, ?_, ?_⟩
  · simp [Block.replacePointer]
  · intro hmem
    rcases List.mem_map.1 hmem with ⟨x, _, hx⟩
    by_cases hxo : x = o
    · rw [if_pos hxo] at hx
      exact hon hx.symm
    · rw [if_neg hxo] at hx
      exact hxo hx
  · intro i hi
    simp [Block.replacePointer, List.getElem?_map, hi]
  · intro i x hi hxo
    simp [Block.replacePointer, List.getElem?_map, hi, hxo]

/-- Witness for claim C7 at the concrete chain `[1, 2, 3]`, retargeting 2
to 9. -/
theorem replacePointer_substitutes_witness :
    (2 ∈ blkChain.Pointers ∧ 9 ∉ blkChain.Pointers) ∧
    ((blkChain.replacePointer 2 9).Pointers.length = blkChain.Pointers.length ∧
     2 ∉ (blkChain.replacePointer 2 9).Pointers ∧
     (∀ i : Nat, blkChain.Pointers[i]? = some 2 →
       (blkChain.replacePointer 2 9).Pointers[i]? = some 9) ∧
     (∀ i : Nat, ∀ x, blkChain.Pointers[i]? = some x → x ≠ 2 →
       (blkChain.replacePointer 2 9).Pointers[i]? = some x)) :=
  ⟨⟨by decide, by decide⟩, replacePointer_substitutes blkChain 2 9 (by decide) (by decide)⟩

theorem applyBlockOp_flags (b : Block) (op : BlockOp) :
    (applyBlockOp b op).IsStatic = b.IsStatic ∧
    (applyBlockOp b op).IsExtern = b.IsExtern ∧
    (applyBlockOp b op).IsDead = b.IsDead := by
  cases op with
  | life op => cases op <;> exact ⟨rfl, rfl, rfl⟩
  | chain op => cases op <;> exact ⟨rfl, rfl, rfl⟩

/-- Claim C9: the static and extern flags are fixed at construction and
survive every lifecycle or chain operation unchanged; the dead flag is
never changed by any operation, is false out of both public constructors
and true out of the dead-on-creation constructor. -/
theorem flags_fixed_dead_once (b : Block) (ops : List BlockOp) :
    ((applyBlockOps b ops).IsStatic = b.IsStatic ∧
     (applyBlockOps b ops).IsExtern = b.IsExtern ∧
     (applyBlockOps b ops).IsDead = b.IsDead) ∧
    (∀ DeclID Desc S E mem,
      (Block.mkWithId DeclID Desc S E mem).IsDead = false ∧
      (Block.mkWithId DeclID Desc S E mem).IsStatic = S ∧
      (Block.mkWithId DeclID Desc S E mem).IsExtern = E) ∧
    (∀ Desc S E mem,
      (Block.mkNoId Desc S E mem).IsDead = false ∧
      (Block.mkNoId Desc S E mem).IsStatic = S ∧
      (Block.mkNoId Desc S E mem).IsExtern = E) ∧
    (∀ Desc E S mem, (Block.mkDead Desc E S mem).IsDead = true) := by
  refine ⟨?_, fun _ _ _ _ _ => ⟨rfl, rfl, rfl⟩,
    fun _ _ _ _ => ⟨rfl, rfl, rfl⟩, fun _ _ _ _ => rfl⟩
  induction ops generalizing b with
  | nil => exact ⟨rfl, rfl, rfl⟩
  | cons op t ih =>
    have step : applyBlockOps b (op :: t) =
        applyBlockOps (applyBlockOp b op) t := rfl
    rw [step]
    obtain ⟨h1, h2, h3⟩ := ih (applyBlockOp b op)
    obtain ⟨g1, g2, g3⟩ := applyBlockOp_flags b op
    exact ⟨h1.trans g1, h2.trans g2, h3.trans g3⟩

theorem retargetAll_not_mem (ps : List Nat) (tgt : Nat → Option Nat)
    (newB p : Nat) (h : p ∉ ps) : retargetAll tgt ps newB p = tgt p := by
  induction ps generalizing tgt with
  | nil => rfl
  | cons a t ih =>
    have hpa : p ≠ a := fun e => h (e ▸ List.mem_cons_self a t)
    rw [retargetAll, ih _ (fun m => h (List.mem_cons_of_mem a m))]
    simp [hpa]

theorem retargetAll_mem (ps : List Nat) (tgt : Nat → Option Nat)
    (newB p : Nat) (h : p ∈ ps) : retargetAll tgt ps newB p = some newB := by
  induction ps generalizing tgt with
  | nil => cases h
  | cons a t ih =>
    by_cases hpt : p ∈ t
    · rw [retargetAll]
      exact ih _ hpt
    · have hpa : p = a := by
        rcases List.mem_cons.1 h with h1 | h2
        · exact h1
        · exact absurd h2 hpt
      rw [retargetAll, retargetAll_not_mem t _ newB p hpt]
      simp [hpa]

/-- Claim C6: constructing a dead block from a live block copies the
source's bytes into a fresh node of identical content, marks the embedded
block dead, links the node at the head of the global list (the root now
names it and its next link names the old root, whose prev link is patched
back), keeps the transferred chain at the same length and order, retargets
every previously attached reference to the new embedded block — whose data
view is byte-identical to the source's — and leaves every other pointer and
node untouched. -/
theorem deadBlock_ctor_spec (h : Heap) (tgt : Nat → Option Nat) (src : Block)
    (newId : Nat) (hfresh : h.nodes newId = none)
    (hroot : h.root ≠ some newId) :
    (deadBlockCtor h tgt src newId).1.root = some newId ∧
    (∃ nd, (deadBlockCtor h tgt src newId).1.nodes newId = some nd ∧
      nd.prev = none ∧ nd.next = h.root ∧
      nd.B.Pointers = src.Pointers ∧
      nd.B.Pointers.length = src.Pointers.length ∧
      nd.B.rawBytes = src.rawBytes ∧
      nd.B.dataBytes = src.dataBytes ∧
      nd.B.IsDead = true) ∧
    (∀ p, p ∈ src.Pointers → (deadBlockCtor h tgt src newId).2 p = some newId) ∧
    (∀ p, p ∉ src.Pointers → (deadBlockCtor h tgt src newId).2 p = tgt p) ∧
    (∀ r, h.root = some r →
      (deadBlockCtor h tgt src newId).1.nodes r =
        (h.nodes r).map (fun x => ⟨some newId, x.next, x.B⟩)) ∧
    (∀ i, i ≠ newId → h.root ≠ some i →
      (deadBlockCtor h tgt src newId).1.nodes i = h.nodes i) := by
  refine ⟨rfl,
    ⟨⟨none, h.root, { src with IsDead := true }⟩, by simp [deadBlockCtor],
      rfl, rfl, rfl, rfl, rfl, rfl, rfl⟩, ?_, ?_, ?_, ?_⟩
  · intro p hp
    exact retargetAll_mem src.Pointers tgt newId p hp
  · intro p hp
    exact retargetAll_not_mem src.Pointers tgt newId p hp
  · intro r hr
    have hrn : r ≠ newId := fun e => hroot (e ▸ hr)
    simp [deadBlockCtor, hr, hrn]
  · intro i hin hri
    rcases hr : h.root with _ | r
    · simp [deadBlockCtor, hr, hin]
    · have hir : i ≠ r := fun e => hri (e ▸ hr)
      simp [deadBlockCtor, hr, hin, hir]

/-- Witness for claim C6: relocating the concrete block `blkChain` (three
attached pointers) into the empty global list at node 7. -/
theorem deadBlock_ctor_spec_witness :
    (heapEmpty.nodes 7 = none ∧ heapEmpty.root ≠ some 7) ∧
    ((deadBlockCtor heapEmpty tgtEmpty blkChain 7).1.root = some 7 ∧
     (∃ nd, (deadBlockCtor heapEmpty tgtEmpty blkChain 7).1.nodes 7 = some nd ∧
       nd.prev = none ∧ nd.next = heapEmpty.root ∧
       nd.B.Pointers = blkChain.Pointers ∧
       nd.B.Pointers.length = blkChain.Pointers.length ∧
       nd.B.rawBytes = blkChain.rawBytes ∧
       nd.B.dataBytes = blkChain.dataBytes ∧
       nd.B.IsDead = true) ∧
     (∀ p, p ∈ blkChain.Pointers →
       (deadBlockCtor heapEmpty tgtEmpty blkChain 7).2 p = some 7) ∧
     (∀ p, p ∉ blkChain.Pointers →
       (deadBlockCtor heapEmpty tgtEmpty blkChain 7).2 p = tgtEmpty p) ∧
     (∀ r, heapEmpty.root = some r →
       (deadBlockCtor heapEmpty tgtEmpty blkChain 7).1.nodes r =
         (heapEmpty.nodes r).map (fun x => ⟨some 7, x.next, x.B⟩)) ∧
     (∀ i, i ≠ 7 → heapEmpty.root ≠ some i →
       (deadBlockCtor heapEmpty tgtEmpty blkChain 7).1.nodes i =
         heapEmpty.nodes i)) :=
  ⟨⟨rfl, by simp [heapEmpty]⟩,
    deadBlock_ctor_spec heapEmpty tgtEmpty blkChain 7 rfl (by simp [heapEmpty])⟩

theorem linksOf_not_mem (f : Nat → Block) (l : List Nat) :
    ∀ (pr : Option Nat) (i : Nat), i ∉ l → linksOf f l pr i = none := by
  induction l with
  | nil => intro pr i _; rfl
  | cons a t ih =>
    intro pr i h
    have hia : i ≠ a := fun e => h (e ▸ List.mem_cons_self a t)
    simp only [linksOf]
    rw [if_neg hia]
    exact ih (some a) i (fun m => h (List.mem_cons_of_mem a m))

theorem linksOf_append (f : Nat → Block) (l₁ l₂ : List Nat) :
    ∀ (pr : Option Nat) (i : Nat), i ∉ l₁ →
      linksOf f (l₁ ++ l₂) pr i = linksOf f l₂ (lastOpt l₁ pr) i := by
  induction l₁ with
  | nil => intro pr i _; rfl
  | cons a t ih =>
    intro pr i h
    have hia : i ≠ a := fun e => h (e ▸ List.mem_cons_self a t)
    show linksOf f (a :: (t ++ l₂)) pr i = _
    simp only [linksOf]
    rw [if_neg hia]
    exact ih (some a) i (fun m => h (List.mem_cons_of_mem a m))

theorem linksOf_lookup (f : Nat → Block) (l₁ t : List Nat) (pr : Option Nat)
    (a : Nat) (ha : a ∉ l₁) :
    linksOf f (l₁ ++ a :: t) pr a = some ⟨lastOpt l₁ pr, t.head?, f a⟩ := by
  rw [linksOf_append f l₁ (a :: t) pr a ha]
  simp [linksOf]

theorem lastOpt_some (l : List Nat) :
    ∀ x : Nat, ∃ y, lastOpt l (some x) = some y ∧ y ∈ x :: l := by
  induction l with
  | nil => intro x; exact ⟨x, rfl, List.mem_cons_self x []⟩
  | cons a t ih =>
    intro x
    rcases ih a with ⟨y, hy, hmem⟩
    refine ⟨y, hy, ?_⟩
    rcases List.mem_cons.1 hmem with h1 | h2
    · exact List.mem_cons_of_mem x (h1 ▸ List.mem_cons_self a t)
    · exact List.mem_cons_of_mem x (List.mem_cons_of_mem a h2)

theorem traverse_cons (ns : Nat → Option DNode) (i fuel : Nat) (nd : DNode)
    (h : ns i = some nd) :
    traverse ns (some i) (fuel + 1) = i :: traverse ns nd.next fuel := by
  simp only [traverse]
  rw [h]

theorem traverse_linksOf (f : Nat → Block) (l₂ : List Nat) :
    ∀ (l₁ : List Nat) (pr : Option Nat), (l₁ ++ l₂).Nodup →
      traverse (fun i => linksOf f (l₁ ++ l₂) pr i) l₂.head? l₂.length = l₂ := by
  induction l₂ with
  | nil => intro l₁ pr _; rfl
  | cons a t ih =>
    intro l₁ pr h
    have hdis := List.disjoint_of_nodup_append h
    have ha : a ∉ l₁ := fun m => hdis m (List.mem_cons_self a t)
    have hlook : linksOf f (l₁ ++ a :: t) pr a =
        some ⟨lastOpt l₁ pr, t.head?, f a⟩ := linksOf_lookup f l₁ t pr a ha
    show traverse (fun i => linksOf f (l₁ ++ a :: t) pr i) (some a)
      (t.length + 1) = a :: t
    rw [traverse_cons _ a t.length _ hlook]
    have hre : (l₁ ++ [a]) ++ t = l₁ ++ a :: t := by simp
    have h2 : ((l₁ ++ [a]) ++ t).Nodup := by rw [hre]; exact h
    have ht := ih (l₁ ++ [a]) pr h2
    rw [hre] at ht
    rw [ht]

theorem traverse_mkHeap (f : Nat → Block) (l : List Nat) (h : l.Nodup) :
    traverse (mkHeap f l).nodes (mkHeap f l).root l.length = l :=
  traverse_linksOf f l [] none h

theorem head?_mem_of_eq (l : List Nat) (q : Nat) (h : l.head? = some q) :
    q ∈ l := by
  cases l with
  | nil => cases h
  | cons a t =>
    have ha : a = q := by injection h
    exact ha ▸ List.mem_cons_self a t

theorem delNode_at (ns : Nat → Option DNode) (n : Nat) : delNode ns n n = none := by
  simp [delNode]

theorem delNode_ne (ns : Nat → Option DNode) (n i : Nat) (h : i ≠ n) :
    delNode ns n i = ns i := by
  simp [delNode, h]

theorem patchNext_skip (ns : Nat → Option DNode) (pr nx : Option Nat) (i : Nat)
    (h : ∀ p, pr = some p → i ≠ p) : patchNext ns pr nx i = ns i := by
  cases pr with
  | none => rfl
  | some p => simp [patchNext, h p rfl]

theorem patchNext_at (ns : Nat → Option DNode) (p : Nat) (nx : Option Nat) :
    patchNext ns (some p) nx p = (ns p).map (fun x => ⟨x.prev, nx, x.B⟩) := by
  simp [patchNext]

theorem patchPrev_skip (ns : Nat → Option DNode) (nx pr : Option Nat) (i : Nat)
    (h : ∀ q, nx = some q → i ≠ q) : patchPrev ns nx pr i = ns i := by
  cases nx with
  | none => rfl
  | some q => simp [patchPrev, h q rfl]

theorem patchPrev_at (ns : Nat → Option DNode) (q : Nat) (pr : Option Nat) :
    patchPrev ns (some q) pr q = (ns q).map (fun x => ⟨pr, x.next, x.B⟩) := by
  simp [patchPrev]

theorem patchNext_congr (ns ns' : Nat → Option DNode) (pr nx : Option Nat)
    (i : Nat) (h : ns i = ns' i) : patchNext ns pr nx i = patchNext ns' pr nx i := by
  cases pr with
  | none => exact h
  | some p =>
    simp only [patchNext]
    rw [h]

theorem patchPrev_congr (ns ns' : Nat → Option DNode) (nx pr : Option Nat)
    (i : Nat) (h : ns i = ns' i) : patchPrev ns nx pr i = patchPrev ns' nx pr i := by
  cases nx with
  | none => exact h
  | some q =>
    simp only [patchPrev]
    rw [h]

theorem freePatch_congr (ns ns' : Nat → Option DNode) (n : Nat) (nd : DNode)
    (i : Nat) (h : ns i = ns' i) : freePatch ns n nd i = freePatch ns' n nd i := by
  unfold freePatch
  apply patchPrev_congr
  apply patchNext_congr
  by_cases hin : i = n
  · simp [delNode, hin]
  · simp [delNode, hin, h]

theorem freeNodes_eq (ns : Nat → Option DNode) (n : Nat) (nd : DNode)
    (h : ns n = some nd) : freeNodes ns n = freePatch ns n nd := by
  unfold freeNodes
  rw [h]

theorem linksOf_pr_irrel (f : Nat → Block) (l : List Nat) (pr pr' : Option Nat)
    (i : Nat) (h : ∀ a t, l = a :: t → i ≠ a) :
    linksOf f l pr i = linksOf f l pr' i := by
  cases l with
  | nil => rfl
  | cons a t =>
    simp only [linksOf]
    rw [if_neg (h a t rfl), if_neg (h a t rfl)]

theorem freeNodes_linksOf (f : Nat → Block) (n : Nat) (l₂ : List Nat) :
    ∀ (l₁ : List Nat) (pr : Option Nat),
      (l₁ ++ n :: l₂).Nodup →
      (∀ x, pr = some x → x ∉ l₁ ++ n :: l₂) →
      ∀ i, freeNodes (fun j => linksOf f (l₁ ++ n :: l₂) pr j) n i =
        linksOf f (l₁ ++ l₂) pr i := by
  intro l₁
  induction l₁ with
  | nil =>
    intro pr h hpr i
    have hnl2 : n ∉ l₂ := (List.nodup_cons.1 h).1
    have hnd : (fun j => linksOf f (([] : List Nat) ++ n :: l₂) pr j) n =
        some ⟨pr, l₂.head?, f n⟩ := by
      show linksOf f (n :: l₂) pr n = _
      simp [linksOf]
    rw [freeNodes_eq _ n _ hnd]
    show patchPrev (patchNext (delNode (fun j => linksOf f (n :: l₂) pr j) n)
        pr l₂.head?) l₂.head? pr i = linksOf f l₂ pr i
    by_cases hin : i = n
    · subst hin
      rw [patchPrev_skip _ _ _ _ (by
        intro q hq e
        subst e
        exact hnl2 (head?_mem_of_eq l₂ _ hq))]
      rw [patchNext_skip _ _ _ _ (by
        intro p hp e
        subst e
        exact hpr _ hp (List.mem_cons_self _ _))]
      rw [delNode_at]
      exact (linksOf_not_mem f l₂ pr i hnl2).symm
    · cases l₂ with
      | nil =>
        have hnone : linksOf f (n :: ([] : List Nat)) pr i = none := by
          simp only [linksOf]
          rw [if_neg hin]
        rw [patchPrev_skip _ _ _ _ (by intro q hq e; cases hq)]
        cases pr with
        | none =>
          rw [patchNext_skip _ _ _ _ (by intro p hp e; cases hp)]
          rw [delNode_ne _ _ _ hin]
          exact hnone
        | some x =>
          by_cases hix : i = x
          · subst hix
            rw [patchNext_at, delNode_ne _ _ _ hin]
            show (linksOf f (n :: ([] : List Nat)) (some i) i).map _ = _
            rw [hnone]
            rfl
          · rw [patchNext_skip _ _ _ _ (by
              intro p hp e
              injection hp with h1
              subst h1
              exact hix e)]
            rw [delNode_ne _ _ _ hin]
            exact hnone
      | cons q t =>
        have hqn : q ≠ n := fun e => hnl2 (e ▸ List.mem_cons_self q t)
        have key : ∀ A B : Option Nat, i ≠ q →
            linksOf f (q :: t) A i = linksOf f (q :: t) B i := fun A B hiq =>
          linksOf_pr_irrel f (q :: t) A B i (fun a t' he e => by
            injection he with h1 h2
            exact hiq (e.trans h1.symm))
        have hns : ∀ j, j ≠ n → linksOf f (n :: q :: t) pr j =
            linksOf f (q :: t) (some n) j := fun j hj => by
          simp only [linksOf]
          rw [if_neg hj]
        by_cases hiq : i = q
        · subst hiq
          rw [show (i :: t).head? = some i from rfl]
          rw [patchPrev_at]
          rw [patchNext_skip _ _ _ _ (by
            intro p hp e
            subst e
            exact hpr _ hp (List.mem_cons_of_mem n (List.mem_cons_self _ _)))]
          rw [delNode_ne _ _ _ hin]
          have hval : linksOf f (n :: i :: t) pr i =
              some ⟨some n, t.head?, f i⟩ := by
            rw [hns i hin]
            simp [linksOf]
          show (linksOf f (n :: i :: t) pr i).map _ = _
          rw [hval]
          simp [linksOf]
        · rw [patchPrev_skip _ _ _ _ (by
            intro q' hq' e
            rw [List.head?_cons] at hq'
            injection hq' with h1
            subst h1
            exact hiq e)]
          cases pr with
          | none =>
            rw [patchNext_skip _ _ _ _ (by intro p hp e; cases hp)]
            rw [delNode_ne _ _ _ hin]
            show linksOf f (n :: q :: t) none i = _
            rw [hns i hin]
            exact key (some n) none hiq
          | some x =>
            have hx : x ∉ n :: q :: t := hpr x rfl
            by_cases hix : i = x
            · subst hix
              rw [patchNext_at, delNode_ne _ _ _ hin]
              have h1 : linksOf f (n :: q :: t) (some i) i = none :=
                linksOf_not_mem f (n :: q :: t) (some i) i hx
              have h2 : linksOf f (q :: t) (some i) i = none :=
                linksOf_not_mem f (q :: t) (some i) i
                  (fun m => hx (List.mem_cons_of_mem n m))
              show (linksOf f (n :: q :: t) (some i) i).map _ = _
              rw [h1, h2]
              rfl
            · rw [patchNext_skip _ _ _ _ (by
                intro p hp e
                injection hp with h1
                subst h1
                exact hix e)]
              rw [delNode_ne _ _ _ hin]
              show linksOf f (n :: q :: t) (some x) i = _
              rw [hns i hin]
              exact key (some n) (some x) hiq
  | cons a u ih =>
    intro pr h hpr i
    have ha : a ∉ u ++ n :: l₂ := (List.nodup_cons.1 h).1
    have hM : (u ++ n :: l₂).Nodup := (List.nodup_cons.1 h).2
    have hna : n ≠ a := fun e =>
      ha (e ▸ List.mem_append_right u (List.mem_cons_self n l₂))
    have hnu : n ∉ u := fun m =>
      (List.disjoint_of_nodup_append hM) m (List.mem_cons_self n l₂)
    have hau : a ∉ u := fun m => ha (List.mem_append_left _ m)
    have hal2 : a ∉ l₂ := fun m =>
      ha (List.mem_append_right u (List.mem_cons_of_mem n m))
    have hnd_small : (fun j => linksOf f (u ++ n :: l₂) (some a) j) n =
        some ⟨lastOpt u (some a), l₂.head?, f n⟩ :=
      linksOf_lookup f u l₂ (some a) n hnu
    have hnd_big : (fun j => linksOf f ((a :: u) ++ n :: l₂) pr j) n =
        some ⟨lastOpt u (some a), l₂.head?, f n⟩ := by
      show linksOf f (a :: (u ++ n :: l₂)) pr n = _
      simp only [linksOf]
      rw [if_neg hna]
      exact hnd_small
    rw [freeNodes_eq _ n _ hnd_big]
    by_cases hia : i = a
    · subst hia
      show patchPrev (patchNext (delNode
          (fun j => linksOf f (i :: (u ++ n :: l₂)) pr j) n)
          (lastOpt u (some i)) l₂.head?) l₂.head? (lastOpt u (some i)) i =
        linksOf f ((i :: u) ++ l₂) pr i
      have hrhs : linksOf f ((i :: u) ++ l₂) pr i =
          some ⟨pr, (u ++ l₂).head?, f i⟩ := by
        show linksOf f (i :: (u ++ l₂)) pr i = _
        simp [linksOf]
      rw [hrhs]
      rw [patchPrev_skip _ _ _ _ (by
        intro q hq e
        subst e
        exact hal2 (head?_mem_of_eq l₂ _ hq))]
      have hnsa : linksOf f (i :: (u ++ n :: l₂)) pr i =
          some ⟨pr, (u ++ n :: l₂).head?, f i⟩ := by
        simp [linksOf]
      cases u with
      | nil =>
        rw [show lastOpt ([] : List Nat) (some i) = some i from rfl]
        rw [patchNext_at, delNode_ne _ _ _ (Ne.symm hna), hnsa]
        rfl
      | cons c u2 =>
        rcases lastOpt_some u2 c with ⟨y, hy, hymem⟩
        have hlast : lastOpt (c :: u2) (some i) = some y := hy
        have hyu : y ∈ c :: u2 := hymem
        rw [hlast]
        rw [patchNext_skip _ _ _ _ (by
          intro p hp e
          injection hp with h1
          subst h1
          subst e
          exact hau hyu)]
        rw [delNode_ne _ _ _ (Ne.symm hna), hnsa]
        rfl
    · have hprS : ∀ x, (some a : Option Nat) = some x → x ∉ u ++ n :: l₂ :=
        fun x hx => by
          injection hx with h1
          exact h1 ▸ ha
      have hsmall := ih (some a) hM hprS i
      rw [freeNodes_eq _ n _ hnd_small] at hsmall
      have hcongr : freePatch (fun j => linksOf f ((a :: u) ++ n :: l₂) pr j) n
          ⟨lastOpt u (some a), l₂.head?, f n⟩ i =
          freePatch (fun j => linksOf f (u ++ n :: l₂) (some a) j) n
          ⟨lastOpt u (some a), l₂.head?, f n⟩ i := by
        apply freePatch_congr
        show linksOf f (a :: (u ++ n :: l₂)) pr i = _
        simp only [linksOf]
        rw [if_neg hia]
      rw [hcongr, hsmall]
      show linksOf f (u ++ l₂) (some a) i = linksOf f (a :: (u ++ l₂)) pr i
      simp only [linksOf]
      rw [if_neg hia]

theorem free_mkHeap (f : Nat → Block) (l₁ l₂ : List Nat) (n : Nat)
    (h : (l₁ ++ n :: l₂).Nodup) :
    Heap.free (mkHeap f (l₁ ++ n :: l₂)) n = mkHeap f (l₁ ++ l₂) := by
  have hn1 : n ∉ l₁ := fun m =>
    (List.disjoint_of_nodup_append h) m (List.mem_cons_self n l₂)
  have hnd : (mkHeap f (l₁ ++ n :: l₂)).nodes n =
      some ⟨lastOpt l₁ none, l₂.head?, f n⟩ := linksOf_lookup f l₁ l₂ none n hn1
  unfold Heap.free
  rw [hnd]
  apply Heap.ext
  · cases l₁ with
    | nil => rfl
    | cons a u =>
      rcases lastOpt_some u a with ⟨y, hy, _⟩
      show (match lastOpt (a :: u) none with
        | some _ => (mkHeap f ((a :: u) ++ n :: l₂)).root
        | none => l₂.head?) = (mkHeap f ((a :: u) ++ l₂)).root
      rw [show lastOpt (a :: u) none = some y from hy]
      rfl
  · funext i
    show freeNodes (fun j => linksOf f (l₁ ++ n :: l₂) none j) n i =
      linksOf f (l₁ ++ l₂) none i
    exact freeNodes_linksOf f n l₂ l₁ none h (fun x hx => by cases hx) i

/-- Claim C8: freeing a dead block whose chain has emptied unlinks it from
the global list wherever it sits — `l₁` is the part of the list before it,
`l₂` the part after it, so head, middle and tail positions are all
covered — patching the neighbours' links or the root so that walking the
list afterwards yields exactly the other nodes in their original order,
and reclaims the node's storage. -/
theorem deadBlock_free_unlinks (f : Nat → Block) (l₁ l₂ : List Nat) (n : Nat)
    (hnd : (l₁ ++ n :: l₂).Nodup)
    (hchain : ∀ d, (mkHeap f (l₁ ++ n :: l₂)).nodes n = some d →
      d.B.Pointers = []) :
    Heap.free (mkHeap f (l₁ ++ n :: l₂)) n = mkHeap f (l₁ ++ l₂) ∧
    (Heap.free (mkHeap f (l₁ ++ n :: l₂)) n).nodes n = none ∧
    traverse (Heap.free (mkHeap f (l₁ ++ n :: l₂)) n).nodes
      (Heap.free (mkHeap f (l₁ ++ n :: l₂)) n).root (l₁ ++ l₂).length =
      l₁ ++ l₂ := by
  have h1 := free_mkHeap f l₁ l₂ n hnd
  have hsub : (l₁ ++ l₂).Sublist (l₁ ++ n :: l₂) :=
    List.Sublist.append_left ((List.Sublist.refl l₂).cons n) l₁
  have hnd2 : (l₁ ++ l₂).Nodup := hnd.sublist hsub
  have hnmem : n ∉ l₁ ++ l₂ := by
    intro m
    rcases List.mem_append.1 m with m1 | m2
    · exact (List.disjoint_of_nodup_append hnd) m1 (List.mem_cons_self n l₂)
    · have h2 : (n :: l₂).Nodup := ((List.nodup_append.1 hnd).2).1
      exact (List.nodup_cons.1 h2).1 m2
  refine ⟨h1, ?_, ?_⟩
  · rw [h1]
    exact linksOf_not_mem f (l₁ ++ l₂) none n hnmem
  · rw [h1]
    exact traverse_mkHeap f (l₁ ++ l₂) hnd2

/-- Witness for claim C8: freeing the middle node of the concrete global
list 1, 2, 3 (each node embedding the pointerless block `blkAA`). -/
theorem deadBlock_free_unlinks_witness :
    ((([1] ++ 2 :: [3]) : List Nat)).Nodup ∧
    (Heap.free (mkHeap fAA ([1] ++ 2 :: [3])) 2 = mkHeap fAA ([1] ++ [3]) ∧
     (Heap.free (mkHeap fAA ([1] ++ 2 :: [3])) 2).nodes 2 = none ∧
     traverse (Heap.free (mkHeap fAA ([1] ++ 2 :: [3])) 2).nodes
       (Heap.free (mkHeap fAA ([1] ++ 2 :: [3])) 2).root
       (([1] ++ [3] : List Nat)).length = [1] ++ [3]) :=
  ⟨by decide, deadBlock_free_unlinks fAA [1] [3] 2 (by decide) (by
    intro d hd
    have he : (mkHeap fAA ([1] ++ 2 :: [3])).nodes 2 =
        some ⟨some 1, some 3, fAA 2⟩ := rfl
    rw [he] at hd
    injection hd with h1
    rw [← h1]
    rfl)⟩

/-- Claim C10: the public constructor form without a declaration identity
stores `(unsigned)-1`, so `getDeclID` returns a present optional holding
4294967295; only the dead-block constructor leaves the declaration id
absent. -/
theorem declID_minus_one_present (Desc : Descriptor) (S E : Bool) (mem : List Nat) :
    (Block.mkNoId Desc S E mem).getDeclID = some 4294967295 ∧
    (Block.mkNoId Desc S E mem).getDeclID ≠ none ∧
    (Block.mkDead Desc E S mem).getDeclID = none := by
  refine ⟨by norm_num [Block.mkNoId, Block.getDeclID], by
    simp [Block.mkNoId, Block.getDeclID], rfl⟩

/-- Witness for claim C10 at the concrete descriptor `descByte`. -/
theorem declID_minus_one_present_witness :
    (Block.mkNoId descByte false false []).getDeclID = some 4294967295 ∧
    (Block.mkNoId descByte false false []).getDeclID ≠ none ∧
    (Block.mkDead descByte false false []).getDeclID = none :=
  declID_minus_one_present descByte false false []

end InterpBlock
